import Mathlib

/-!
Verification of the Attendless-NIBM session-classification and attendance code.

The development shallowly embeds the two Python source files (`NIBM.py`, the CLI
variant, and `attendlessnibm.py`, the Streamlit UI variant).  Conventions:

* A spreadsheet cell / session label is `Option String`; `none` models a
  missing value (`NaN`, for which `pd.isna` is true).  Strings are modelled
  over their character lists; Python's `\s` class and `str.lower` are modelled
  on the ASCII range actually exercised by the repository's data
  (`' '`, `'\t'`, `'\n'`, `'\r'`, `'\x0b'`, `'\x0c'` for whitespace).
* A mapping store (a Python `dict`) is an insertion-ordered association list
  `List (String × String)`; iteration order is list order, `normalized in
  mappings` is `List.lookup`, and `d[k] = v` overwrites in place or appends.
* The five `re.sub` calls of `normalize_session_text` are embedded as
  dedicated leftmost-match scanners.  All five patterns are anchored by
  `.*$` or `\s*$`, so a match always removes the rest of the string; `$` is
  modelled as end-of-string and `.` as any character (the repository's labels
  contain no newlines).  `re.IGNORECASE` makes `[A-Z]` and `[a-z]` match
  letters of either case, which is modelled by `Char.isAlpha`.
* `int(total * (80 / 100))` is modelled exactly: `80 / 100` is the IEEE-754
  double nearest to 4/5, namely `3602879701896397 / 2 ^ 52`, and the product
  with `float(total)` is rounded to 53 significant bits, ties to even, before
  truncation.
-/

/-- The characters matched by Python's `\s` (and removed by `str.strip`). -/
def pySpace (c : Char) : Bool :=
  c = ' ' || c = '\t' || c = '\n' || c = '\r' || c = Char.ofNat 11 || c = Char.ofNat 12

/-- Python `str.lower`, on the ASCII range. -/
def pyLower (cs : List Char) : List Char := cs.map Char.toLower

/-- Python `str.lower` at `String` type. -/
def pyLowerStr (s : String) : String := String.mk (pyLower s.data)

/-- Python `str.strip`: drop `\s`-characters at both ends. -/
def pyStrip (cs : List Char) : List Char :=
  ((cs.dropWhile pySpace).reverse.dropWhile pySpace).reverse

/-- Case-insensitive literal prefix test: does `cs` start with the (lowercase)
pattern `pat`?  This is how one alternative of an `IGNORECASE` alternation
matches at a position. -/
def ciStarts : List Char → List Char → Bool
  | [], _ => true
  | _ :: _, [] => false
  | p :: ps, c :: cs => p = c.toLower && ciStarts ps cs

/-- The instructor titles of the patterns
`(Ms|Mr|Dr|Prof|Professor)` in `normalize_session_text`, lowercased. -/
def titleWords : List (List Char) :=
  ["ms".data, "mr".data, "dr".data, "prof".data, "professor".data]

/-- The trailing qualifiers of the patterns `(tutorial|practical|tute|prac|lab)`
in `normalize_session_text`, lowercased. -/
def qualWords : List (List Char) :=
  ["tutorial".data, "practical".data, "tute".data, "prac".data, "lab".data]

/-- Continuation `\s+[A-Z][a-z]+.*$` of the instructor patterns: at least one
whitespace character, then at least two letters (under `IGNORECASE`, `[A-Z]`
and `[a-z]` both match any ASCII letter); `.*$` then matches the rest. -/
def nameTail (cs : List Char) : Bool :=
  match cs with
  | [] => false
  | c :: _ =>
    pySpace c &&
      (match cs.dropWhile pySpace with
       | a :: b :: _ => a.isAlpha && b.isAlpha
       | _ => false)

/-- Continuation `\.?\s+[A-Z][a-z]+.*$` after an instructor title: the optional
dot is a backtracking choice, so the whole continuation matches iff it matches
with the dot consumed or without it. -/
def instrAfterTitle (cs : List Char) : Bool :=
  (match cs with
   | c :: rest => c = '.' && nameTail rest
   | [] => false) ||
  nameTail cs

/-- Sub-match `(Ms|Mr|Dr|Prof|Professor)\.?\s+[A-Z][a-z]+.*$` starting at the
current position: some alternative matches case-insensitively and its
continuation succeeds. -/
def titleInstr (cs : List Char) : Bool :=
  titleWords.any (fun t => ciStarts t cs && instrAfterTitle (cs.drop t.length))

/-- Match of `\s*-\s*(Ms|Mr|Dr|Prof|Professor)\.?\s+[A-Z][a-z]+.*$` at the
current position (the first `re.sub` of `normalize_session_text`).  The space
runs are deterministic because a dash or a letter must follow them. -/
def instrDashAt (cs : List Char) : Bool :=
  match cs.dropWhile pySpace with
  | c :: r => c = '-' && titleInstr (r.dropWhile pySpace)
  | [] => false

/-- Match of `\s+(Ms|Mr|Dr|Prof|Professor)\.?\s+[A-Z][a-z]+.*$` at the current
position (the second `re.sub` of `normalize_session_text`). -/
def instrSpaceAt (cs : List Char) : Bool :=
  match cs with
  | c :: _ => pySpace c && titleInstr (cs.dropWhile pySpace)
  | [] => false

/-- Sub-match `(tutorial|practical|tute|prac|lab)\s*$` at the current
position. -/
def qualEnd (cs : List Char) : Bool :=
  qualWords.any (fun q => ciStarts q cs && (cs.drop q.length).all pySpace)

/-- Match of `\s*-\s*(tutorial|practical|tute|prac|lab)\s*$` at the current
position (the third `re.sub` of `normalize_session_text`). -/
def qualDashAt (cs : List Char) : Bool :=
  match cs.dropWhile pySpace with
  | c :: r => c = '-' && qualEnd (r.dropWhile pySpace)
  | [] => false

/-- Match of `\s+(tutorial|practical|tute|prac|lab)\s*$` at the current
position (the fourth `re.sub`). -/
def qualSpaceAt (cs : List Char) : Bool :=
  match cs with
  | c :: _ => pySpace c && qualEnd (cs.dropWhile pySpace)
  | [] => false

/-- Match of `\s*-\s*$` at the current position (the fifth `re.sub`, removing
a trailing dash). -/
def dashEndAt (cs : List Char) : Bool :=
  match cs.dropWhile pySpace with
  | c :: r => c = '-' && r.all pySpace
  | [] => false

/-- `re.sub(pattern, '', text)` for a pattern that always matches to the end of
the string: remove everything from the leftmost position where `p` matches. -/
def subToEnd (p : List Char → Bool) : List Char → List Char
  | [] => []
  | c :: cs => if p (c :: cs) then [] else c :: subToEnd p cs

/-- `re.sub(r'\s+', ' ', text)`: replace every maximal whitespace run by one
space. -/
def collapse : List Char → List Char
  | [] => []
  | [c] => if pySpace c then [' '] else [c]
  | c :: d :: cs =>
    if pySpace c && pySpace d then collapse (d :: cs)
    else (if pySpace c then ' ' else c) :: collapse (d :: cs)

/-- `normalize_session_text` from both source files: strip, remove a trailing
instructor segment (dash form, then space form), remove a trailing qualifier
(dash form, then space form), remove a trailing lone dash, collapse whitespace
and strip again.  A missing (`NaN`) cell yields the empty string. -/
def normalize_session_text (text : Option String) : String :=
  match text with
  | none => ""
  | some s =>
    let t0 := pyStrip s.data
    let t1 := subToEnd instrDashAt t0
    let t2 := subToEnd instrSpaceAt t1
    let t3 := subToEnd qualDashAt t2
    let t4 := subToEnd qualSpaceAt t3
    let t5 := subToEnd dashEndAt t4
    String.mk (pyStrip (collapse t5))

/-- Python's substring test `sub in s` on character lists: `sub` occurs
contiguously in `cs` (the empty string occurs in everything). -/
def containsSub (sub : List Char) : List Char → Bool
  | [] => sub.isEmpty
  | c :: cs => sub.isPrefixOf (c :: cs) || containsSub sub cs

/-- The exam keywords of `is_exam_session`. -/
def exam_keywords : List String :=
  ["examination", "exam", "coursework", "viva", "cw", "course work"]

/-- `is_exam_session` from both source files: the lowercased raw text contains
one of the exam keywords as a substring; a missing cell is not an exam. -/
def is_exam_session (text : Option String) : Bool :=
  match text with
  | none => false
  | some s => exam_keywords.any (fun k => containsSub k.data (pyLower s.data))

/-- The reserved placeholder labels skipped by both classifiers. -/
def placeholders : List String :=
  ["inauguration", "holiday", "break", "lunch", "nan"]

/-- The lowercased normalization of a label, as computed by
`normalize_session_text(session_text).lower()`. -/
def normalizedLower (text : Option String) : String :=
  pyLowerStr (normalize_session_text text)

/-- The per-key test of the fallback scan in `NIBM.py`:
`key.lower() in normalized or normalized in key.lower()`. -/
def substr_match (normalized : String) (kc : String × String) : Bool :=
  containsSub (pyLower kc.1.data) normalized.data ||
    containsSub normalized.data (pyLower kc.1.data)

/-- The additional per-key test of the UI fallback scan in `attendlessnibm.py`:
`key.lower().replace(" ", "") == normalized.replace(" ", "")`. -/
def nospace_match (normalized : String) (kc : String × String) : Bool :=
  (pyLower kc.1.data).filter (fun c => !(c = ' ')) ==
    normalized.data.filter (fun c => !(c = ' '))

namespace NIBM

/-- Outcome of `NIBM.get_module_code_for_session` up to its I/O boundary:
`ret v` models returning the Python value `v` (`None`, `"EXAM"` or a module
code); `prompt normalized` models reaching the interactive loop that asks the
user for a code and records the answer under `normalized`. -/
inductive PyOutcome
  | ret (v : Option String)
  | prompt (normalized : String)
  deriving DecidableEq, Repr

/-- `get_module_code_for_session` from `NIBM.py` (its pure prefix): exam check
on the raw label, then normalization, then the skip test, then exact lookup,
then the insertion-order substring scan, and otherwise the interactive
prompt. -/
def get_module_code_for_session (session_text : Option String)
    (mappings : List (String × String)) : PyOutcome :=
  if is_exam_session session_text then .ret (some "EXAM")
  else
    let normalized := normalizedLower session_text
    if normalized = "" || placeholders.contains normalized then .ret none
    else
      match mappings.lookup normalized with
      | some code => .ret (some code)
      | none =>
        match mappings.find? (substr_match normalized) with
        | some kc => .ret (some kc.2)
        | none => .prompt normalized

end NIBM

/-- The `mappings[normalized] = module_code` store mutation (followed by
`save_module_mappings`): a Python `dict` assignment overwrites an existing key
in place and appends a new key at the end of the iteration order. -/
def record (mappings : List (String × String)) (k v : String) :
    List (String × String) :=
  if (mappings.lookup k).isSome then
    mappings.map (fun kc => if kc.1 = k then (k, v) else kc)
  else
    mappings ++ [(k, v)]

namespace Attendless

/-- `get_module_code_for_session` from `attendlessnibm.py`: as the CLI variant,
but the fallback scan additionally accepts a key whose lowercased,
space-stripped text equals the space-stripped normalized label, and an
unmapped label yields `None` instead of a prompt. -/
def get_module_code_for_session (session_text : Option String)
    (mappings : List (String × String)) : Option String :=
  if is_exam_session session_text then some "EXAM"
  else
    let normalized := normalizedLower session_text
    if normalized = "" || placeholders.contains normalized then none
    else
      match mappings.lookup normalized with
      | some code => some code
      | none =>
        match mappings.find?
            (fun kc => substr_match normalized kc || nospace_match normalized kc) with
        | some kc => some kc.2
        | none => none

end Attendless

/-- State of the persisted `module_mappings.json` file, at the granularity the
loaders distinguish: absent, present but not valid JSON (on which `json.load`
raises `json.JSONDecodeError`), or present with a parsed mapping. -/
inductive FileState
  | absent
  | corrupt (raw : String)
  | valid (m : List (String × String))

/-- The Python exceptions relevant to `load_module_mappings`. -/
inductive PyError
  | fileNotFound
  | jsonDecodeError
  deriving DecidableEq, Repr

namespace NIBM

/-- `load_module_mappings` from `NIBM.py`: only `FileNotFoundError` is caught
(yielding the empty store); a file with unparseable contents makes `json.load`
raise `json.JSONDecodeError`, which propagates to the caller. -/
def load_module_mappings : FileState → Except PyError (List (String × String))
  | .absent => .ok []
  | .corrupt _ => .error .jsonDecodeError
  | .valid m => .ok m

end NIBM

namespace Attendless

/-- `load_module_mappings` from `attendlessnibm.py`: a missing file fails the
`os.path.exists` test and yields the empty store, and every exception (in
particular a JSON decode error) is caught, reported via `st.error`, and
converted to the empty store. -/
def load_module_mappings : FileState → List (String × String)
  | .absent => []
  | .corrupt _ => []
  | .valid m => m

end Attendless

/-- The failures `load_schedule` can hit after parsing: the explicit
`ValueError` for fewer than three columns, and the `IndexError` raised by
`df.iloc[0]` when no row remains after dropping rows with a missing date.
Both are caught by the function's `try`/`except`, which reports the error and
returns `None`. -/
inductive LoadError
  | formatError
  | indexError
  deriving DecidableEq, Repr

/-- The `Date` cell of a parsed row: its first cell, `none` when the row is
too short or the cell is `NaN`. -/
def dateCell (r : List (Option String)) : Option String := (r.get? 0).join

/-- `df.dropna(subset=["Date"])`: the rows whose `Date` cell is present. -/
def datedRows (rows : List (List (Option String))) : List (List (Option String)) :=
  rows.filter (fun r => (dateCell r).isSome)

/-- The stray-header test
`df.iloc[0]["Date"] and str(df.iloc[0]["Date"]).lower() in ["date", "day"]`:
the cell is truthy (a non-empty string) and lowercases to `"date"` or
`"day"`. -/
def isStrayHeader (r : List (Option String)) : Bool :=
  match dateCell r with
  | some s => !(s = "") && (pyLowerStr s = "date" || pyLowerStr s = "day")
  | none => false

/-- The column renaming
`["Date", "Morning", "Afternoon"] + [f"Extra_{i}" for i in range(n - 3)]`. -/
def columnNames (ncols : Nat) : List String :=
  ["Date", "Morning", "Afternoon"] ++
    (List.range (ncols - 3)).map (fun i => "Extra_" ++ toString i)

/-- `load_schedule` from both source files, modelled on the parsed table (the
spreadsheet's first row has already become the pandas header): a data row is a
list of cells.  Requires at least 3 columns, renames them, drops rows with a
missing date, then probes `df.iloc[0]` — raising `IndexError` if nothing
remains — and drops that first row when it is a stray header. -/
def load_schedule (ncols : Nat) (rows : List (List (Option String))) :
    Except LoadError (List String × List (List (Option String))) :=
  if ncols < 3 then .error .formatError
  else
    match datedRows rows with
    | [] => .error .indexError
    | r0 :: rest =>
      if isStrayHeader r0 then .ok (columnNames ncols, rest)
      else .ok (columnNames ncols, r0 :: rest)

/-- The integer significand of the IEEE-754 double nearest to `80 / 100`:
that double is `3602879701896397 / 2 ^ 52`, which is strictly greater
than 4/5 (note `5 * 3602879701896397 = 2 ^ 54 + 1`). -/
def floatM : Nat := 3602879701896397

/-- Fuel-driven bit length of a natural number. -/
def blen : Nat → Nat → Nat
  | 0, _ => 0
  | fuel + 1, m => if m = 0 then 0 else blen fuel (m / 2) + 1

/-- Bit length of a natural number (enough fuel for every value the attendance
model can produce). -/
def bitlen (m : Nat) : Nat := blen 256 m

/-- Round a natural number to 53 significant bits, ties to even — the IEEE-754
double-precision rounding applied to the values `m` and `m / 2 ^ 52` the
attendance computation builds (`float(total)` and `float(total) * 0.8`). -/
def roundNE (m : Nat) : Nat :=
  if m < 2 ^ 53 then m
  else
    let k := bitlen m - 53
    let q := m / 2 ^ k
    let r := m % 2 ^ k
    let h := 2 ^ (k - 1)
    (if h < r || (r = h && q % 2 = 1) then q + 1 else q) * 2 ^ k

/-- `int(total_sessions * (min_percentage / 100))` at the default
`min_percentage = 80`, computed exactly: `total` is converted to the nearest
double, multiplied by the double `floatM / 2 ^ 52`, the product is rounded to
double precision, and `int(...)` truncates towards zero (a floor, as the value
is non-negative). -/
def min_sessions_needed (total : Nat) : Nat :=
  roundNE (roundNE total * floatM) / 2 ^ 52

/-- `calculate_holiday_allowance` from both source files (default
`min_percentage = 80`): returns
`(max(0, (total - min_sessions_needed) - missed), min_sessions_needed)`.
Python's subtraction is over unbounded signed integers, hence `Int`. -/
def calculate_holiday_allowance (total_sessions current_missed : Nat) :
    Int × Nat :=
  let mns := min_sessions_needed total_sessions
  (max 0 ((total_sessions : Int) - mns - current_missed), mns)

/-- No position of `cs` matches `p`: a scan finds nothing to remove. -/
def NoMatchAt (p : List Char → Bool) (cs : List Char) : Prop :=
  ∀ k, p (cs.drop k) = false

/-- Truncation-monotone matchers: a match of a truncated string extends to the
whole string.  This holds for the two instructor patterns, which end in `.*$`,
and fails for the end-anchored qualifier and dash patterns. -/
def TruncMono (p : List Char → Bool) : Prop :=
  ∀ cs j, p (cs.take j) = true → p cs = true

/-- The shape of collapsed text: every whitespace character is a plain space
and no two adjacent characters are both whitespace. -/
def Tidy : List Char → Prop
  | [] => True
  | [c] => pySpace c = true → c = ' '
  | c :: d :: r =>
    (pySpace c = true → c = ' ') ∧ ¬(pySpace c = true ∧ pySpace d = true) ∧
      Tidy (d :: r)

/-! ## General lemmas about the embedded operations -/

theorem lookup_record (m : List (String × String)) (k v : String) :
    (record m k v).lookup k = some v := by
  unfold record
  split
  · rename_i h
    rw [Option.isSome_iff_exists] at h
    obtain ⟨b, hb⟩ := h
    rw [List.lookup_eq_some_iff] at hb
    obtain ⟨l₁, l₂, rfl, hl₁⟩ := hb
    rw [List.lookup_eq_some_iff]
    refine ⟨l₁, l₂.map (fun kc => if kc.1 = k then (k, v) else kc), ?_, hl₁⟩
    rw [List.map_append]
    have h1 : l₁.map (fun kc => if kc.1 = k then (k, v) else kc) = l₁ := by
      conv_rhs => rw [← List.map_id l₁]
      apply List.map_congr_left
      intro a ha
      have hne : ¬ a.1 = k := by
        have h' : k ≠ a.1 := by simpa [bne_iff_ne] using hl₁ a ha
        exact fun e => h' e.symm
      simp [hne]
    have h2 : ((k, b) :: l₂).map (fun kc => if kc.1 = k then (k, v) else kc) =
        (k, v) :: l₂.map (fun kc => if kc.1 = k then (k, v) else kc) := by
      simp
    rw [h1, h2]
  · rename_i h
    rw [List.lookup_append]
    simp only [Option.isSome_iff_exists, not_exists] at h
    have : m.lookup k = none := by
      cases hm : m.lookup k with
      | none => rfl
      | some b => exact absurd hm (h b)
    rw [this]
    simp [List.lookup_cons]

theorem mem_of_lookup_eq_some {m : List (String × String)} {k v : String}
    (h : m.lookup k = some v) : (k, v) ∈ m := by
  rw [List.lookup_eq_some_iff] at h
  obtain ⟨l₁, l₂, rfl, -⟩ := h
  exact List.mem_append_right _ (List.mem_cons_self _ _)

theorem classify_branch (label : Option String) (store : List (String × String))
    (hexam : is_exam_session label = false)
    (hne : normalizedLower label ≠ "")
    (hph : normalizedLower label ∉ placeholders) :
    NIBM.get_module_code_for_session label store =
      (match store.lookup (normalizedLower label) with
       | some code => .ret (some code)
       | none =>
         match store.find? (substr_match (normalizedLower label)) with
         | some kc => .ret (some kc.2)
         | none => .prompt (normalizedLower label)) := by
  unfold NIBM.get_module_code_for_session
  rw [hexam]
  simp [hne, hph]

theorem ui_classify_branch (label : Option String) (store : List (String × String))
    (hexam : is_exam_session label = false)
    (hne : normalizedLower label ≠ "")
    (hph : normalizedLower label ∉ placeholders) :
    Attendless.get_module_code_for_session label store =
      (match store.lookup (normalizedLower label) with
       | some code => some code
       | none =>
         match store.find? (fun kc => substr_match (normalizedLower label) kc ||
             nospace_match (normalizedLower label) kc) with
         | some kc => some kc.2
         | none => none) := by
  unfold Attendless.get_module_code_for_session
  rw [hexam]
  simp [hne, hph]

/-! ## The claims -/

/-- C1: for every raw session label whose lowercased text contains one of the
exam keywords `examination`, `exam`, `coursework`, `viva`, `cw`, `course
work` as a substring, and for every mapping store, `classify` returns EXAM.
The test is on the raw label before normalization, so it takes precedence
over every other classification outcome. -/
theorem C1_exam_precedence (label : String) (store : List (String × String))
    (h : ∃ kw ∈ exam_keywords, containsSub kw.data (pyLower label.data) = true) :
    NIBM.get_module_code_for_session (some label) store = .ret (some "EXAM") := by
  obtain ⟨kw, hmem, hsub⟩ := h
  have hex : is_exam_session (some label) = true := by
    unfold is_exam_session
    rw [List.any_eq_true]
    exact ⟨kw, hmem, hsub⟩
  unfold NIBM.get_module_code_for_session
  rw [hex]
  rfl

theorem C1_exam_precedence_witness :
    (∃ kw ∈ exam_keywords, containsSub kw.data (pyLower "Mid Exam".data) = true) ∧
    NIBM.get_module_code_for_session (some "Mid Exam") [("x", "Y")] =
      .ret (some "EXAM") :=
  ⟨⟨"exam", by decide, by decide⟩,
    C1_exam_precedence "Mid Exam" [("x", "Y")] ⟨"exam", by decide, by decide⟩⟩

/-- C2 (amended): in the CLI variant, for every store and every non-exam label
whose normalization is non-empty, not a placeholder and not an exact key, if
the first key of the store (in insertion order) passing the bidirectional
substring test is `k` with code `c`, then `classify` returns `c`.  (The UI
variant deviates: its scan also accepts space-removed equality, so an earlier
key matching only that way can win; see the counterexample.) -/
theorem C2_substring_fallback (label : Option String) (store : List (String × String))
    (k c : String)
    (hexam : is_exam_session label = false)
    (hne : normalizedLower label ≠ "")
    (hph : normalizedLower label ∉ placeholders)
    (hlk : store.lookup (normalizedLower label) = none)
    (hfind : store.find? (substr_match (normalizedLower label)) = some (k, c)) :
    NIBM.get_module_code_for_session label store = .ret (some c) := by
  rw [classify_branch label store hexam hne hph, hlk, hfind]

/-- C2 counterexample: in the UI variant, with the store
`{"d s a": "B", "d": "X"}` and the label `"dsa"`, the first key passing the
substring test is `"d"` (code `"X"`), but the classifier returns `"B"`
because the earlier key `"d s a"` matches by space-removed equality. -/
theorem C2_counterexample :
    List.find? (substr_match (normalizedLower (some "dsa")))
        [("d s a", "B"), ("d", "X")] = some ("d", "X") ∧
    Attendless.get_module_code_for_session (some "dsa")
        [("d s a", "B"), ("d", "X")] = some "B" ∧
    Attendless.get_module_code_for_session (some "dsa")
        [("d s a", "B"), ("d", "X")] ≠ some "X" := by
  refine ⟨by decide, by decide, by decide⟩

theorem C2_substring_fallback_witness :
    (is_exam_session (some "Data Structures and Algorithms") = false ∧
      normalizedLower (some "Data Structures and Algorithms") ≠ "" ∧
      normalizedLower (some "Data Structures and Algorithms") ∉ placeholders ∧
      List.lookup (normalizedLower (some "Data Structures and Algorithms"))
        [("data structures", "DSA")] = none ∧
      List.find? (substr_match (normalizedLower (some "Data Structures and Algorithms")))
        [("data structures", "DSA")] = some ("data structures", "DSA")) ∧
    NIBM.get_module_code_for_session (some "Data Structures and Algorithms")
      [("data structures", "DSA")] = .ret (some "DSA") :=
  ⟨⟨by decide, by decide, by decide, by decide, by decide⟩,
    C2_substring_fallback (some "Data Structures and Algorithms")
      [("data structures", "DSA")] "data structures" "DSA"
      (by decide) (by decide) (by decide) (by decide) (by decide)⟩

/-- C3 (amended): after `record(key, "DSA")`, `classify` on a label whose
normalized lowercased form equals `key` returns MODULE("DSA") — provided the
raw label is not exam-related and `key` is neither empty nor a reserved
placeholder (otherwise the exam or skip branch fires before the exact
lookup; see the counterexample). -/
theorem C3_record_then_classify (store : List (String × String))
    (key : String) (label : Option String)
    (hnorm : normalizedLower label = key)
    (hexam : is_exam_session label = false)
    (hne : key ≠ "")
    (hph : key ∉ placeholders) :
    NIBM.get_module_code_for_session label (record store key "DSA") =
      .ret (some "DSA") := by
  have h := classify_branch label (record store key "DSA") hexam
    (by rw [hnorm]; exact hne) (by rw [hnorm]; exact hph)
  rw [h, hnorm, lookup_record]

/-- C3 counterexample: with `key = "mid cw"` (its own normalized form), after
`record("mid cw", "DSA")` the label `"mid cw"` is still classified EXAM — the
raw-label keyword test (`"cw"`) precedes the exact lookup — not
MODULE("DSA"). -/
theorem C3_counterexample :
    normalizedLower (some "mid cw") = "mid cw" ∧
    NIBM.get_module_code_for_session (some "mid cw") (record [] "mid cw" "DSA") =
      .ret (some "EXAM") ∧
    NIBM.get_module_code_for_session (some "mid cw") (record [] "mid cw" "DSA") ≠
      .ret (some "DSA") := by
  refine ⟨by decide, by decide, by decide⟩

theorem C3_record_then_classify_witness :
    (normalizedLower (some "Data Structures") = "data structures" ∧
      is_exam_session (some "Data Structures") = false ∧
      "data structures" ≠ "" ∧ "data structures" ∉ placeholders) ∧
    NIBM.get_module_code_for_session (some "Data Structures")
      (record [("x", "Y")] "data structures" "DSA") = .ret (some "DSA") :=
  ⟨⟨by decide, by decide, by decide, by decide⟩,
    C3_record_then_classify [("x", "Y")] "data structures" (some "Data Structures")
      (by decide) (by decide) (by decide) (by decide)⟩

/-- C4 (amended): with the two keys `"os"` and `"operating systems"` stored
(in either insertion order, with codes `a` and `b`), a non-exam label that
normalizes to `"operating systems"` resolves by the exact-match step — which
precedes the insertion-order substring scan — so it returns `b`, the code of
the key `"operating systems"`, regardless of which key was inserted first. -/
theorem C4_exact_match_precedence (label : Option String) (a b : String)
    (hexam : is_exam_session label = false)
    (hnorm : normalizedLower label = "operating systems") :
    NIBM.get_module_code_for_session label [("os", a), ("operating systems", b)] =
        .ret (some b) ∧
    NIBM.get_module_code_for_session label [("operating systems", b), ("os", a)] =
        .ret (some b) := by
  constructor
  · rw [classify_branch label _ hexam (by rw [hnorm]; decide) (by rw [hnorm]; decide),
      hnorm]
    rfl
  · rw [classify_branch label _ hexam (by rw [hnorm]; decide) (by rw [hnorm]; decide),
      hnorm]
    rfl

/-- C4 counterexample: with `"os"` inserted first (store
`{"os": "A", "operating systems": "B"}`), the label `"Operating Systems"`
returns `"B"` — the code of the exactly matching key — not `"A"`, the code of
the first-inserted key, contradicting the claimed insertion-order
tie-break. -/
theorem C4_counterexample :
    NIBM.get_module_code_for_session (some "Operating Systems")
        [("os", "A"), ("operating systems", "B")] = .ret (some "B") ∧
    NIBM.get_module_code_for_session (some "Operating Systems")
        [("os", "A"), ("operating systems", "B")] ≠ .ret (some "A") := by
  refine ⟨by decide, by decide⟩

theorem C4_exact_match_precedence_witness :
    (is_exam_session (some "Operating Systems") = false ∧
      normalizedLower (some "Operating Systems") = "operating systems") ∧
    NIBM.get_module_code_for_session (some "Operating Systems")
        [("os", "A"), ("operating systems", "B")] = .ret (some "B") ∧
    NIBM.get_module_code_for_session (some "Operating Systems")
        [("operating systems", "B"), ("os", "A")] = .ret (some "B") :=
  ⟨⟨by decide, by decide⟩,
    C4_exact_match_precedence (some "Operating Systems") "A" "B"
      (by decide) (by decide)⟩

/-- C6 (amended): for every store none of whose values is the literal
`"EXAM"` and every label whose lowercased raw text contains no exam keyword,
`classify` never returns EXAM; in particular the substring-fallback step only
ever returns a value stored in the mapping.  (A store value can be `"EXAM"` —
the mapping file is human-editable and the CLI records any uppercased user
input — and then the fallback does return EXAM; see the counterexample.) -/
theorem C6_no_exam_leak (label : Option String) (store : List (String × String))
    (hvals : ∀ kc ∈ store, kc.2 ≠ "EXAM")
    (hexam : is_exam_session label = false) :
    NIBM.get_module_code_for_session label store ≠ .ret (some "EXAM") := by
  unfold NIBM.get_module_code_for_session
  rw [hexam]
  simp only [Bool.false_eq_true, if_false]
  split
  · simp
  · split
    · rename_i code hcode
      have := hvals _ (mem_of_lookup_eq_some hcode)
      simp [this]
    · split
      · rename_i kc hkc
        have := hvals _ (List.mem_of_find?_eq_some hkc)
        simp [this]
      · simp

/-- C6 counterexample: with the store `{"data": "EXAM"}` and the non-exam
label `"database"`, the substring fallback (the key `"data"` is a substring
of the normalized label `"database"`) returns the reserved code EXAM. -/
theorem C6_counterexample :
    is_exam_session (some "database") = false ∧
    List.lookup (normalizedLower (some "database")) [("data", "EXAM")] = none ∧
    NIBM.get_module_code_for_session (some "database") [("data", "EXAM")] =
      .ret (some "EXAM") := by
  refine ⟨by decide, by decide, by decide⟩

theorem C6_no_exam_leak_witness :
    ((∀ kc ∈ [("data structures", "DSA")], kc.2 ≠ "EXAM") ∧
      is_exam_session (some "database") = false) ∧
    NIBM.get_module_code_for_session (some "database") [("data structures", "DSA")] ≠
      .ret (some "EXAM") :=
  ⟨⟨by decide, by decide⟩,
    C6_no_exam_leak (some "database") [("data structures", "DSA")]
      (by decide) (by decide)⟩

/-- C7 (amended): the UI variant's `load` returns a store for every file
state — the parsed mapping when valid, the empty store when the file is
absent or corrupt — but the CLI variant catches only `FileNotFoundError`: it
returns the empty store when the file is absent and propagates the JSON
decode error to the caller when the file exists with corrupt contents. -/
theorem C7_load_mappings_behavior :
    NIBM.load_module_mappings .absent = .ok [] ∧
    (∀ s, NIBM.load_module_mappings (.corrupt s) = .error .jsonDecodeError) ∧
    (∀ m, NIBM.load_module_mappings (.valid m) = .ok m) ∧
    Attendless.load_module_mappings .absent = [] ∧
    (∀ s, Attendless.load_module_mappings (.corrupt s) = []) ∧
    (∀ m, Attendless.load_module_mappings (.valid m) = m) :=
  ⟨rfl, fun _ => rfl, fun _ => rfl, rfl, fun _ => rfl, fun _ => rfl⟩

/-- C7 counterexample: on a file with corrupt (unparseable) contents the CLI
loader raises a JSON decode error instead of returning the empty store. -/
theorem C7_counterexample :
    NIBM.load_module_mappings (.corrupt "not json") = .error .jsonDecodeError ∧
    NIBM.load_module_mappings (.corrupt "not json") ≠ .ok [] :=
  ⟨rfl, fun h => Except.noConfusion h⟩

/-- C9 (amended): `load_schedule` fails with the format error exactly when
fewer than 3 columns are present; with at least 3 columns it renames the
columns, keeps exactly the rows whose Date cell is present, and then drops
the first remaining row exactly when its Date cell, compared
case-insensitively, equals `"date"` or `"day"` — except that when no row
remains after dropping missing dates, probing that first row raises an
`IndexError`, so the load fails instead of returning an empty table. -/
theorem C9_load_schedule_behavior (ncols : Nat) (rows : List (List (Option String))) :
    (ncols < 3 → load_schedule ncols rows = .error .formatError) ∧
    (3 ≤ ncols → datedRows rows = [] → load_schedule ncols rows = .error .indexError) ∧
    (3 ≤ ncols → ∀ r0 rest, datedRows rows = r0 :: rest →
      load_schedule ncols rows =
        .ok (columnNames ncols, if isStrayHeader r0 then rest else r0 :: rest)) ∧
    (∀ r ∈ datedRows rows, (dateCell r).isSome = true) ∧
    (∀ r0, isStrayHeader r0 = true ↔
      ∃ s, dateCell r0 = some s ∧ (pyLowerStr s = "date" ∨ pyLowerStr s = "day")) := by
  refine ⟨?_, ?_, ?_, ?_, ?_⟩
  · intro h
    unfold load_schedule
    rw [if_pos h]
  · intro h3 hd
    unfold load_schedule
    rw [if_neg (Nat.not_lt.mpr h3), hd]
  · intro h3 r0 rest hd
    by_cases hs : isStrayHeader r0 = true <;>
      simp [load_schedule, Nat.not_lt.mpr h3, hd, hs]
  · intro r hr
    exact (List.mem_filter.mp hr).2
  · intro r0
    unfold isStrayHeader
    cases hdc : dateCell r0 with
    | none => simp
    | some s =>
      simp only [Bool.and_eq_true, Bool.or_eq_true, Bool.not_eq_eq_eq_not,
        Bool.not_true, decide_eq_false_iff_not, Option.some.injEq]
      constructor
      · rintro ⟨-, h⟩
        exact ⟨s, rfl, by simpa [pyLowerStr] using h⟩
      · rintro ⟨s', rfl, h⟩
        refine ⟨?_, by simpa [pyLowerStr] using h⟩
        rintro rfl
        rcases h with h | h <;> simp [pyLowerStr, pyLower] at h

/-- C9 counterexample: a source with exactly 3 columns and no data rows is
not a format error, yet the load fails (with the index error from probing
the absent first row) instead of performing the described row
transformations. -/
theorem C9_counterexample :
    load_schedule 3 ([] : List (List (Option String))) = .error .indexError ∧
    ¬ (3 : Nat) < 3 := by
  refine ⟨rfl, by decide⟩

theorem C9_load_schedule_behavior_witness :
    ((3 : Nat) ≤ 3 ∧
      datedRows [[some "Date", some "M", some "A"],
          [some "2024-01-01", some "DSA", none]] =
        [some "Date", some "M", some "A"] ::
          [[some "2024-01-01", some "DSA", none]]) ∧
    load_schedule 3 [[some "Date", some "M", some "A"],
        [some "2024-01-01", some "DSA", none]] =
      .ok (["Date", "Morning", "Afternoon"],
        [[some "2024-01-01", some "DSA", none]]) :=
  ⟨⟨by decide, by decide⟩,
    ((C9_load_schedule_behavior 3
        [[some "Date", some "M", some "A"],
          [some "2024-01-01", some "DSA", none]]).2.2.1
      (by decide) [some "Date", some "M", some "A"]
      [[some "2024-01-01", some "DSA", none]] (by decide)).trans (by rfl)⟩

/-- C10 (amended): the UI fallback scan returns the code of the first key (in
insertion order) matching either by the bidirectional substring test or by
space-removed equality; in particular a key whose lowercased space-stripped
text equals the space-stripped normalized label is returned when it is the
first match, even though neither string is a substring of the other.  (The
claim's unconditional "whenever" fails: an earlier key matching only by the
substring test preempts it; see the counterexample.) -/
theorem C10_ui_fallback (label : Option String) (store : List (String × String))
    (k c : String)
    (hexam : is_exam_session label = false)
    (hne : normalizedLower label ≠ "")
    (hph : normalizedLower label ∉ placeholders)
    (hlk : store.lookup (normalizedLower label) = none)
    (hfind : store.find? (fun kc => substr_match (normalizedLower label) kc ||
        nospace_match (normalizedLower label) kc) = some (k, c)) :
    Attendless.get_module_code_for_session label store = some c := by
  rw [ui_classify_branch label store hexam hne hph, hlk, hfind]

/-- C10 counterexample: with store `{"d": "X", "ds a": "B"}` and label
`"d sa"`, the key `"ds a"` equals the label after removing spaces (and
neither is a substring of the other), yet the classifier returns `"X"` — the
code of the earlier, substring-matching key `"d"` — not that key's code. -/
theorem C10_counterexample :
    nospace_match (normalizedLower (some "d sa")) ("ds a", "B") = true ∧
    substr_match (normalizedLower (some "d sa")) ("ds a", "B") = false ∧
    Attendless.get_module_code_for_session (some "d sa") [("d", "X"), ("ds a", "B")] =
      some "X" ∧
    Attendless.get_module_code_for_session (some "d sa") [("d", "X"), ("ds a", "B")] ≠
      some "B" := by
  refine ⟨by decide, by decide, by decide, by decide⟩

theorem C10_ui_fallback_witness :
    (is_exam_session (some "ds a") = false ∧
      normalizedLower (some "ds a") ≠ "" ∧
      normalizedLower (some "ds a") ∉ placeholders ∧
      List.lookup (normalizedLower (some "ds a")) [("d s a", "B")] = none ∧
      List.find? (fun kc => substr_match (normalizedLower (some "ds a")) kc ||
        nospace_match (normalizedLower (some "ds a")) kc) [("d s a", "B")] =
          some ("d s a", "B") ∧
      nospace_match (normalizedLower (some "ds a")) ("d s a", "B") = true ∧
      substr_match (normalizedLower (some "ds a")) ("d s a", "B") = false) ∧
    Attendless.get_module_code_for_session (some "ds a") [("d s a", "B")] = some "B" :=
  ⟨⟨by decide, by decide, by decide, by decide, by decide, by decide, by decide⟩,
    C10_ui_fallback (some "ds a") [("d s a", "B")] "d s a" "B"
      (by decide) (by decide) (by decide) (by decide) (by decide)⟩

/-! ## Lemmas for the floating-point attendance threshold (C8) -/

theorem blen_spec (fuel : Nat) : ∀ m : Nat, m < 2 ^ fuel → 0 < m →
    2 ^ (blen fuel m - 1) ≤ m ∧ m < 2 ^ blen fuel m := by
  induction fuel with
  | zero =>
    intro m hm h0
    simp only [pow_zero] at hm
    omega
  | succ f ih =>
    intro m hm h0
    have hne : m ≠ 0 := by omega
    rw [blen, if_neg hne]
    by_cases h1 : m = 1
    · subst h1
      have hz : blen f 0 = 0 := by cases f <;> simp [blen]
      simp [hz]
    · have h2 : 2 ≤ m := by omega
      have hm2 : m < 2 ^ f * 2 := by rw [pow_succ] at hm; exact hm
      have hdiv : m / 2 < 2 ^ f := by omega
      have hpos : 0 < m / 2 := by omega
      obtain ⟨hl, hr⟩ := ih (m / 2) hdiv hpos
      have hb1 : 1 ≤ blen f (m / 2) := by
        by_contra hb
        have hb0 : blen f (m / 2) = 0 := by omega
        rw [hb0, pow_zero] at hr
        omega
      have e1 : 2 ^ blen f (m / 2) = 2 * 2 ^ (blen f (m / 2) - 1) := by
        conv_lhs => rw [show blen f (m / 2) = (blen f (m / 2) - 1) + 1 by omega]
        rw [pow_succ]
        ring
      have e2 : 2 ^ (blen f (m / 2) + 1) = 2 * 2 ^ blen f (m / 2) := by
        rw [pow_succ]
        ring
      refine ⟨?_, ?_⟩
      · rw [Nat.add_sub_cancel, e1]
        omega
      · rw [e2]
        omega

theorem bitlen_spec (m : Nat) (h0 : 0 < m) (hub : m < 2 ^ 256) :
    2 ^ (bitlen m - 1) ≤ m ∧ m < 2 ^ bitlen m :=
  blen_spec 256 m hub h0

theorem roundNE_small (m : Nat) (h : m < 2 ^ 53) : roundNE m = m := by
  rw [roundNE, if_pos h]

theorem roundNE_near (m : Nat) (h53 : 2 ^ 53 ≤ m) :
    ∃ t, roundNE m = t * 2 ^ (bitlen m - 53) ∧
      (m / 2 ^ (bitlen m - 53) = t ∨ m / 2 ^ (bitlen m - 53) + 1 = t) := by
  rw [roundNE, if_neg (by omega)]
  dsimp only
  split
  · exact ⟨_, rfl, Or.inr rfl⟩
  · exact ⟨_, rfl, Or.inl rfl⟩

/-- The minimum-sessions value agrees with truncating integer division for
every total below `2 ^ 50` (beyond that, double rounding can differ; the
smallest divergence is at `2 ^ 52`). -/
theorem msn_eq_floor (n : Nat) (hn : n < 2 ^ 50) :
    min_sessions_needed n = n * 80 / 100 := by
  rcases Nat.eq_zero_or_pos n with rfl | hpos
  · decide
  have hM : floatM = 3602879701896397 := rfl
  have h52 : (2 : Nat) ^ 52 = 4503599627370496 := by norm_num
  have h50 : (2 : Nat) ^ 50 = 1125899906842624 := by norm_num
  have h53 : (2 : Nat) ^ 53 = 9007199254740992 := by norm_num
  -- the double conversion of the total is exact
  have hsm : roundNE n = n := roundNE_small n (by omega)
  rw [min_sessions_needed, hsm]
  set m := n * floatM with hm
  -- the key arithmetic identity: 100 * m = (n * 80) * 2 ^ 52 + 20 * n
  have hkey : 100 * m = n * 80 * 2 ^ 52 + 20 * n := by
    rw [hm, hM, h52]
    ring
  -- division facts about q = n * 80 / 100
  have hq := Nat.div_add_mod (n * 80) 100
  set q := n * 80 / 100 with hqdef
  set r := n * 80 % 100 with hrdef
  have hr100 : r < 100 := Nat.mod_lt _ (by norm_num)
  have hr20 : r ≤ 80 := by omega
  have hmq : 100 * m = (100 * q + r) * 2 ^ 52 + 20 * n := by
    rw [hkey, ← hq]
  have hm' : m = n * 3602879701896397 := by rw [hm, hM]
  rw [h52] at hmq
  rw [h50] at hn
  by_cases hbig : m < 2 ^ 53
  · -- no rounding at all
    rw [roundNE_small m hbig]
    apply Nat.div_eq_of_lt_le
    · rw [h52]
      omega
    · rw [h52, Nat.succ_mul]
      omega
  · -- rounding to 53 significant bits
    push_neg at hbig
    have h0m : 0 < m := by omega
    have hmub : m < 2 ^ 102 := by
      have e102 : (2 : Nat) ^ 102 = 5070602400912917605986812821504 := by norm_num
      rw [e102]
      omega
    obtain ⟨hbl, hbr⟩ := bitlen_spec m h0m
      (lt_trans hmub (by norm_num))
    have hbub : bitlen m ≤ 102 := by
      by_contra hcon
      push_neg at hcon
      have h1 : (2 : Nat) ^ 102 ≤ 2 ^ (bitlen m - 1) :=
        Nat.pow_le_pow_right (by norm_num) (by omega)
      exact absurd (lt_of_le_of_lt (le_trans h1 hbl) hmub) (lt_irrefl _)
    have hblb : 54 ≤ bitlen m := by
      by_contra hcon
      push_neg at hcon
      have h1 : m < 2 ^ 53 :=
        lt_of_lt_of_le hbr (Nat.pow_le_pow_right (by norm_num) (by omega))
      rw [h53] at h1
      omega
    obtain ⟨t, hrt, hqt⟩ := roundNE_near m (by omega)
    rw [hrt]
    set k := bitlen m - 53 with hk
    have hk1 : 1 ≤ k := by omega
    have hk49 : k ≤ 49 := by omega
    have hApos : 0 < 2 ^ k := Nat.pos_pow_of_pos k (by norm_num)
    have hAub : 2 ^ k ≤ 2 ^ 49 := Nat.pow_le_pow_right (by norm_num) hk49
    have h49 : (2 : Nat) ^ 49 = 562949953421312 := by norm_num
    rw [h49] at hAub
    -- decompose m by the rounding grid
    have hdm : 2 ^ k * (m / 2 ^ k) + m % 2 ^ k = m := Nat.div_add_mod m (2 ^ k)
    have hmod : m % 2 ^ k < 2 ^ k := Nat.mod_lt _ hApos
    set u := m / 2 ^ k with hu
    set s := m % 2 ^ k with hs
    -- the target value on the grid
    have hck : (2 : Nat) ^ 52 = 2 ^ (52 - k) * 2 ^ k := by
      rw [← pow_add]
      congr 1
      omega
    set c := 2 ^ (52 - k) with hc
    -- q * 2 ^ 52 < m, so q * c ≤ u ≤ t
    have hlow : q * 2 ^ 52 < m := by
      rw [h52]
      omega
    have hvu : q * c < u + 1 := by
      have h1 : (q * c) * 2 ^ k < (u + 1) * 2 ^ k := by
        calc (q * c) * 2 ^ k = q * 2 ^ 52 := by rw [hck]; ring
          _ < m := hlow
          _ = 2 ^ k * u + s := hdm.symm
          _ < (u + 1) * 2 ^ k := by
              rw [Nat.add_mul, one_mul, Nat.mul_comm]
              omega
      exact lt_of_mul_lt_mul_right h1 (Nat.zero_le _)
    have hut : u ≤ t := by
      rcases hqt with h | h <;> omega
    have htu : t ≤ u + 1 := by
      rcases hqt with h | h <;> omega
    -- the upper bound m + 2 ^ k < (q + 1) * 2 ^ 52
    have hup : t * 2 ^ k < (q + 1) * 2 ^ 52 := by
      have h1 : t * 2 ^ k ≤ 2 ^ k * u + 2 ^ k := by
        calc t * 2 ^ k ≤ (u + 1) * 2 ^ k := Nat.mul_le_mul_right _ htu
          _ = 2 ^ k * u + 2 ^ k := by ring
      have h2 : 2 ^ k * u + 2 ^ k ≤ m + 2 ^ k := by omega
      have h3 : m + 2 ^ k < (q + 1) * 2 ^ 52 := by
        rw [h52, Nat.add_mul, one_mul]
        omega
      omega
    apply Nat.div_eq_of_lt_le
    · calc q * 2 ^ 52 = (q * c) * 2 ^ k := by rw [hck]; ring
        _ ≤ t * 2 ^ k := Nat.mul_le_mul_right _ (by omega)
    · rw [Nat.succ_mul]
      rw [Nat.add_mul, one_mul] at hup
      exact hup

/-- C8 (amended): for every total below `2 ^ 50` and every
`missed ≤ total`, `calculate_holiday_allowance(total, missed)` returns
`minSessionsNeeded = floor(total * 80 / 100)` (truncating division) and
`allowance = max(0, (total - minSessionsNeeded) - missed)`; in particular
`(20, 2)` yields `(2, 16)` and `(20, 5)` yields allowance 0.  (For huge
totals the double-precision product `total * 0.8` can round up past the
floor — the smallest such total is `2 ^ 52`; see the counterexample.) -/
theorem C8_holiday_allowance (total missed : Nat)
    (htot : total < 2 ^ 50) (hm : missed ≤ total) :
    calculate_holiday_allowance total missed =
      (max 0 ((total : Int) - ((total * 80 / 100 : Nat) : Int) - (missed : Int)),
        total * 80 / 100) := by
  unfold calculate_holiday_allowance
  rw [msn_eq_floor total htot]

set_option maxRecDepth 40000 in
/-- C8 counterexample: at `total = 2 ^ 52` (and `missed = 0 ≤ total`) the
computed `minSessionsNeeded` is `3602879701896397`, one more than
`floor(total * 80 / 100) = 3602879701896396`: the double product
`float(2 ^ 52) * 0.8` is exactly `3602879701896397.0`, above the rational
value `4/5 * 2 ^ 52`. -/
theorem C8_counterexample :
    (calculate_holiday_allowance (2 ^ 52) 0).2 = 3602879701896397 ∧
    (2 ^ 52 * 80) / 100 = 3602879701896396 ∧
    (calculate_holiday_allowance (2 ^ 52) 0).2 ≠ (2 ^ 52 * 80) / 100 := by
  refine ⟨by decide, by decide, by decide⟩

theorem C8_holiday_allowance_witness :
    ((20 : Nat) < 2 ^ 50 ∧ (2 : Nat) ≤ 20 ∧ (5 : Nat) ≤ 20) ∧
    calculate_holiday_allowance 20 2 = (2, 16) ∧
    calculate_holiday_allowance 20 5 = (0, 16) :=
  ⟨⟨by decide, by decide, by decide⟩,
    (C8_holiday_allowance 20 2 (by decide) (by decide)).trans (by decide),
    (C8_holiday_allowance 20 5 (by decide) (by decide)).trans (by decide)⟩

/-! ## Lemmas for normalization idempotence (C5) -/

theorem subToEnd_eq_take (p : List Char → Bool) :
    ∀ cs : List Char, ∃ j, subToEnd p cs = cs.take j := by
  intro cs
  induction cs with
  | nil => exact ⟨0, rfl⟩
  | cons c cs ih =>
    obtain ⟨j, hj⟩ := ih
    by_cases h : p (c :: cs) = true
    · exact ⟨0, by rw [subToEnd, if_pos h, List.take_zero]⟩
    · exact ⟨j + 1, by rw [subToEnd, if_neg h, List.take_succ_cons, hj]⟩

theorem noMatchAt_drop {p : List Char → Bool} {cs : List Char}
    (h : NoMatchAt p cs) (n : Nat) : NoMatchAt p (cs.drop n) := by
  intro k
  rw [List.drop_drop]
  exact h (n + k)

theorem noMatchAt_take {p : List Char → Bool} {cs : List Char}
    (hp : TruncMono p) (h : NoMatchAt p cs) (n : Nat) : NoMatchAt p (cs.take n) := by
  intro k
  rw [List.drop_take]
  cases hb : p ((cs.drop k).take (n - k)) with
  | false => rfl
  | true => exact absurd (hp _ _ hb) (by simp [h k])

theorem subToEnd_eq_self_of_noMatch {p : List Char → Bool} :
    ∀ {cs : List Char}, NoMatchAt p cs → subToEnd p cs = cs := by
  intro cs
  induction cs with
  | nil => intro _; rfl
  | cons c cs ih =>
    intro h
    have h0 : p (c :: cs) = false := h 0
    rw [subToEnd, if_neg (by simp [h0])]
    have htail : NoMatchAt p cs := by
      intro k
      exact h (k + 1)
    rw [ih htail]

theorem noMatchAt_subToEnd {p : List Char → Bool}
    (hp : TruncMono p) (h0 : p [] = false) :
    ∀ cs : List Char, NoMatchAt p (subToEnd p cs) := by
  intro cs
  induction cs with
  | nil =>
    intro k
    simpa [subToEnd] using h0
  | cons c cs ih =>
    by_cases h : p (c :: cs) = true
    · rw [subToEnd, if_pos h]
      intro k
      simpa using h0
    · rw [subToEnd, if_neg h]
      intro k
      cases k with
      | succ k' => exact ih k'
      | zero =>
        obtain ⟨j, hj⟩ := subToEnd_eq_take p cs
        cases hb : p (c :: subToEnd p cs) with
        | false => simpa using hb
        | true =>
          have : p (c :: cs) = true := by
            have := hp (c :: cs) (j + 1) (by rw [List.take_succ_cons, ← hj]; exact hb)
            exact this
          exact absurd this h

theorem dropWhile_as_drop (l : List Char) :
    ∃ n, l.dropWhile pySpace = l.drop n := by
  refine ⟨(l.takeWhile pySpace).length, ?_⟩
  calc l.dropWhile pySpace
      = (l.takeWhile pySpace ++ l.dropWhile pySpace).drop (l.takeWhile pySpace).length := by
        rw [List.drop_left]
    _ = l.drop (l.takeWhile pySpace).length := by
        rw [List.takeWhile_append_dropWhile]

theorem stripBack_as_take (l : List Char) :
    ∃ i, (l.reverse.dropWhile pySpace).reverse = l.take i := by
  obtain ⟨n, hn⟩ := dropWhile_as_drop l.reverse
  refine ⟨l.length - n, ?_⟩
  rw [hn, List.drop_reverse, List.reverse_reverse]

theorem pyStrip_as_drop_take (l : List Char) :
    ∃ n i, pyStrip l = (l.drop n).take i := by
  obtain ⟨n, hn⟩ := dropWhile_as_drop l
  obtain ⟨i, hi⟩ := stripBack_as_take (l.dropWhile pySpace)
  exact ⟨n, i, by rw [pyStrip, hi, hn]⟩

theorem noMatchAt_pyStrip {p : List Char → Bool} {cs : List Char}
    (hp : TruncMono p) (h : NoMatchAt p cs) : NoMatchAt p (pyStrip cs) := by
  obtain ⟨n, i, hni⟩ := pyStrip_as_drop_take cs
  rw [hni]
  exact noMatchAt_take hp (noMatchAt_drop h n) i

theorem dropWhile_head_false {l : List Char} {c : Char} {r : List Char}
    (h : l.dropWhile pySpace = c :: r) : pySpace c = false := by
  induction l with
  | nil => simp at h
  | cons a t ih =>
    rw [List.dropWhile_cons] at h
    split at h
    · exact ih h
    · rename_i hna
      cases h
      simpa using hna

theorem dropWhile_take_ex :
    ∀ (cs : List Char) (j : Nat),
      ∃ i, (cs.take j).dropWhile pySpace = (cs.dropWhile pySpace).take i := by
  intro cs
  induction cs with
  | nil => intro j; exact ⟨0, by simp⟩
  | cons c cs ih =>
    intro j
    cases j with
    | zero => exact ⟨0, by simp⟩
    | succ j' =>
      rw [List.take_succ_cons, List.dropWhile_cons]
      by_cases hc : pySpace c = true
      · obtain ⟨i, hi⟩ := ih j'
        rw [if_pos hc, hi, List.dropWhile_cons, if_pos hc]
        exact ⟨i, rfl⟩
      · rw [if_neg hc, List.dropWhile_cons, if_neg hc]
        exact ⟨j' + 1, by rw [List.take_succ_cons]⟩

theorem take_eq_cons {u : List Char} {i : Nat} {a : Char} {l : List Char}
    (h : u.take i = a :: l) : ∃ l', u = a :: l' ∧ l = l'.take (i - 1) := by
  cases u with
  | nil => simp at h
  | cons x u' =>
    cases i with
    | zero => simp at h
    | succ i' =>
      rw [List.take_succ_cons] at h
      cases h
      exact ⟨u', rfl, by simp⟩

theorem ciStarts_take {t : List Char} :
    ∀ {cs : List Char} {j : Nat}, ciStarts t (cs.take j) = true →
      ciStarts t cs = true := by
  induction t with
  | nil => intro cs j _; rfl
  | cons p ps ih =>
    intro cs j h
    cases cs with
    | nil => simp [ciStarts] at h
    | cons c cs' =>
      cases j with
      | zero => simp [ciStarts] at h
      | succ j' =>
        rw [List.take_succ_cons] at h
        rw [ciStarts, Bool.and_eq_true] at h ⊢
        exact ⟨h.1, ih h.2⟩

theorem nameTail_true_iff (cs : List Char) : nameTail cs = true ↔
    ∃ c rest, cs = c :: rest ∧ pySpace c = true ∧
      ∃ a b l, cs.dropWhile pySpace = a :: b :: l ∧
        a.isAlpha = true ∧ b.isAlpha = true := by
  cases cs with
  | nil => simp [nameTail]
  | cons c rest =>
    rw [nameTail, Bool.and_eq_true]
    constructor
    · rintro ⟨hsp, hin⟩
      refine ⟨c, rest, rfl, hsp, ?_⟩
      cases hdw : (c :: rest).dropWhile pySpace with
      | nil => rw [hdw] at hin; simp at hin
      | cons a t =>
        cases t with
        | nil => rw [hdw] at hin; simp at hin
        | cons b l =>
          rw [hdw] at hin
          simp only [Bool.and_eq_true] at hin
          exact ⟨a, b, l, rfl, hin.1, hin.2⟩
    · rintro ⟨c', rest', heq, hsp, a, b, l, hdw, ha, hb⟩
      cases heq
      refine ⟨hsp, ?_⟩
      rw [hdw]
      simp [ha, hb]

theorem instrAfterTitle_true_iff (cs : List Char) : instrAfterTitle cs = true ↔
    (∃ rest, cs = '.' :: rest ∧ nameTail rest = true) ∨ nameTail cs = true := by
  cases cs with
  | nil => simp [instrAfterTitle, nameTail]
  | cons c rest =>
    rw [instrAfterTitle, Bool.or_eq_true, Bool.and_eq_true]
    constructor
    · rintro (⟨hc, hn⟩ | hn)
      · have hc' : c = '.' := of_decide_eq_true hc
        subst hc'
        exact Or.inl ⟨rest, rfl, hn⟩
      · exact Or.inr hn
    · rintro (⟨rest', heq, hn⟩ | hn)
      · cases heq
        exact Or.inl ⟨by simp, hn⟩
      · exact Or.inr hn

theorem titleInstr_true_iff (cs : List Char) : titleInstr cs = true ↔
    ∃ t ∈ titleWords, ciStarts t cs = true ∧
      instrAfterTitle (cs.drop t.length) = true := by
  rw [titleInstr, List.any_eq_true]
  constructor
  · rintro ⟨t, ht, h⟩
    rw [Bool.and_eq_true] at h
    exact ⟨t, ht, h⟩
  · rintro ⟨t, ht, h1, h2⟩
    exact ⟨t, ht, by rw [Bool.and_eq_true]; exact ⟨h1, h2⟩⟩

theorem instrDashAt_true_iff (cs : List Char) : instrDashAt cs = true ↔
    ∃ r, cs.dropWhile pySpace = '-' :: r ∧
      titleInstr (r.dropWhile pySpace) = true := by
  rw [instrDashAt]
  cases hdw : cs.dropWhile pySpace with
  | nil => simp
  | cons c r =>
    rw [Bool.and_eq_true]
    constructor
    · rintro ⟨hc, ht⟩
      exact ⟨r, by rw [of_decide_eq_true hc], ht⟩
    · rintro ⟨r', heq, ht⟩
      cases heq
      exact ⟨by simp, ht⟩

theorem instrSpaceAt_true_iff (cs : List Char) : instrSpaceAt cs = true ↔
    ∃ c rest, cs = c :: rest ∧ pySpace c = true ∧
      titleInstr (cs.dropWhile pySpace) = true := by
  cases cs with
  | nil => simp [instrSpaceAt]
  | cons c rest =>
    rw [instrSpaceAt, Bool.and_eq_true]
    constructor
    · rintro ⟨hsp, ht⟩
      exact ⟨c, rest, rfl, hsp, ht⟩
    · rintro ⟨c', rest', heq, hsp, ht⟩
      cases heq
      exact ⟨hsp, ht⟩

theorem nameTail_take {cs : List Char} {j : Nat}
    (h : nameTail (cs.take j) = true) : nameTail cs = true := by
  rw [nameTail_true_iff] at h ⊢
  obtain ⟨c, rest, heq, hsp, a, b, l, hdw, ha, hb⟩ := h
  obtain ⟨rest0, hcs, -⟩ := take_eq_cons heq
  refine ⟨c, rest0, hcs, hsp, ?_⟩
  obtain ⟨i, hi⟩ := dropWhile_take_ex cs j
  rw [hi] at hdw
  obtain ⟨l1, hu1, hl1⟩ := take_eq_cons hdw
  obtain ⟨l2, hu2, hl2⟩ := take_eq_cons hl1.symm
  exact ⟨a, b, l2, by rw [hu1, hu2], ha, hb⟩

theorem instrAfterTitle_take {cs : List Char} {j : Nat}
    (h : instrAfterTitle (cs.take j) = true) : instrAfterTitle cs = true := by
  rw [instrAfterTitle_true_iff] at h ⊢
  rcases h with ⟨rest, heq, hn⟩ | hn
  · obtain ⟨rest0, hcs, hr⟩ := take_eq_cons heq
    refine Or.inl ⟨rest0, hcs, ?_⟩
    rw [hr] at hn
    exact nameTail_take hn
  · exact Or.inr (nameTail_take hn)

theorem titleInstr_take {cs : List Char} {j : Nat}
    (h : titleInstr (cs.take j) = true) : titleInstr cs = true := by
  rw [titleInstr_true_iff] at h ⊢
  obtain ⟨t, ht, h1, h2⟩ := h
  refine ⟨t, ht, ciStarts_take h1, ?_⟩
  rw [List.drop_take] at h2
  exact instrAfterTitle_take h2

theorem truncMono_instrDash : TruncMono instrDashAt := by
  intro cs j h
  rw [instrDashAt_true_iff] at h ⊢
  obtain ⟨r, hdw, ht⟩ := h
  obtain ⟨i, hi⟩ := dropWhile_take_ex cs j
  rw [hi] at hdw
  obtain ⟨r0, hu, hr⟩ := take_eq_cons hdw
  refine ⟨r0, hu, ?_⟩
  rw [hr] at ht
  obtain ⟨i2, hi2⟩ := dropWhile_take_ex r0 (i - 1)
  rw [hi2] at ht
  exact titleInstr_take ht

theorem truncMono_instrSpace : TruncMono instrSpaceAt := by
  intro cs j h
  rw [instrSpaceAt_true_iff] at h ⊢
  obtain ⟨c, rest, heq, hsp, ht⟩ := h
  obtain ⟨rest0, hcs, -⟩ := take_eq_cons heq
  refine ⟨c, rest0, hcs, hsp, ?_⟩
  obtain ⟨i, hi⟩ := dropWhile_take_ex cs j
  rw [hi] at ht
  exact titleInstr_take ht

theorem space_toLower {c : Char} (h : pySpace c = true) : c.toLower = c := by
  rw [pySpace] at h
  simp only [Bool.or_eq_true, decide_eq_true_eq] at h
  rcases h with ((((rfl | rfl) | rfl) | rfl) | rfl) | rfl <;> decide

theorem isAlpha_nonspace {c : Char} (h : c.isAlpha = true) : pySpace c = false := by
  cases hs : pySpace c with
  | false => rfl
  | true =>
    rw [pySpace] at hs
    simp only [Bool.or_eq_true, decide_eq_true_eq] at hs
    rcases hs with ((((rfl | rfl) | rfl) | rfl) | rfl) | rfl <;> simp at h

theorem collapse_cons_nonspace {c : Char} (h : pySpace c = false) (v : List Char) :
    collapse (c :: v) = c :: collapse v := by
  cases v with
  | nil => simp [collapse, h]
  | cons d vs => simp [collapse, h]

theorem collapse_cons_space :
    ∀ (v : List Char) {c : Char}, pySpace c = true →
      collapse (c :: v) = ' ' :: collapse (v.dropWhile pySpace) := by
  intro v
  induction v with
  | nil =>
    intro c hc
    rw [collapse, if_pos hc]
    rfl
  | cons d vs ih =>
    intro c hc
    by_cases hd : pySpace d = true
    · rw [collapse, if_pos (by simp [hc, hd]), ih hd,
        List.dropWhile_cons, if_pos hd]
    · rw [collapse, if_neg (by simp [hd]), if_pos hc,
        List.dropWhile_cons, if_neg hd]

theorem collapse_dropWhile_self (u : List Char) :
    (collapse (u.dropWhile pySpace)).dropWhile pySpace =
      collapse (u.dropWhile pySpace) := by
  cases hdw : u.dropWhile pySpace with
  | nil => rfl
  | cons x u' =>
    have hx : pySpace x = false := dropWhile_head_false hdw
    rw [collapse_cons_nonspace hx, List.dropWhile_cons, if_neg (by simp [hx])]

theorem dropWhile_collapse (v : List Char) :
    (collapse v).dropWhile pySpace = collapse (v.dropWhile pySpace) := by
  cases v with
  | nil => rfl
  | cons c vs =>
    by_cases hc : pySpace c = true
    · rw [collapse_cons_space vs hc, List.dropWhile_cons, if_pos (by decide),
        List.dropWhile_cons, if_pos hc]
      exact collapse_dropWhile_self vs
    · have hc' : pySpace c = false := by simpa using hc
      simp [List.dropWhile_cons, collapse_cons_nonspace hc', hc']

theorem collapse_head_nonspace {c : Char} {v w : List Char}
    (hc : pySpace c = false) (h : collapse v = c :: w) :
    ∃ v', v = c :: v' ∧ w = collapse v' := by
  cases v with
  | nil => simp [collapse] at h
  | cons a v' =>
    by_cases ha : pySpace a = true
    · rw [collapse_cons_space v' ha] at h
      cases h
      rw [pySpace] at hc
      simp at hc
    · rw [collapse_cons_nonspace (by simpa using ha)] at h
      cases h
      exact ⟨v', rfl, rfl⟩

theorem nameTail_collapse {u : List Char} (h : nameTail (collapse u) = true) :
    nameTail u = true := by
  rw [nameTail_true_iff] at h ⊢
  obtain ⟨c, rest, heq, hsp, a, b, l, hdw, ha, hb⟩ := h
  cases u with
  | nil => simp [collapse] at heq
  | cons x u' =>
    have hx : pySpace x = true := by
      by_contra hxn
      have hx' : pySpace x = false := by simpa using hxn
      rw [collapse_cons_nonspace hx' u'] at heq
      cases heq
      rw [hsp] at hx'
      simp at hx'
    refine ⟨x, u', rfl, hx, ?_⟩
    rw [dropWhile_collapse] at hdw
    obtain ⟨z, hz, hbl⟩ := collapse_head_nonspace (isAlpha_nonspace ha) hdw
    obtain ⟨z', hz', hl⟩ := collapse_head_nonspace (isAlpha_nonspace hb) hbl.symm
    exact ⟨a, b, z', by rw [hz, hz'], ha, hb⟩

theorem ciStarts_collapse :
    ∀ (t : List Char) (u : List Char), (∀ x ∈ t, pySpace x = false) →
      ciStarts t (collapse u) = true →
      ciStarts t u = true ∧ (collapse u).drop t.length = collapse (u.drop t.length) := by
  intro t
  induction t with
  | nil =>
    intro u _ _
    exact ⟨rfl, by simp⟩
  | cons p ps ih =>
    intro u hns h
    cases hcu : collapse u with
    | nil => rw [hcu] at h; simp [ciStarts] at h
    | cons c rest =>
      rw [hcu, ciStarts, Bool.and_eq_true] at h
      obtain ⟨hp, hps⟩ := h
      have hpc : p = c.toLower := of_decide_eq_true hp
      have hcns : pySpace c = false := by
        cases hcs : pySpace c with
        | false => rfl
        | true =>
          have : p = c := by rw [hpc, space_toLower hcs]
          have hpns := hns p (List.mem_cons_self p ps)
          rw [this, hcs] at hpns
          simp at hpns
      obtain ⟨u', hu, hrest⟩ := collapse_head_nonspace hcns hcu
      subst hu
      rw [hrest] at hps
      obtain ⟨h1, h2⟩ := ih u' (fun x hx => hns x (List.mem_cons_of_mem p hx)) hps
      constructor
      · rw [ciStarts, Bool.and_eq_true]
        exact ⟨hp, h1⟩
      · rw [List.length_cons, List.drop_succ_cons, List.drop_succ_cons,
          hrest, h2]

theorem instrAfterTitle_collapse {u : List Char}
    (h : instrAfterTitle (collapse u) = true) : instrAfterTitle u = true := by
  rw [instrAfterTitle_true_iff] at h ⊢
  rcases h with ⟨rest, heq, hn⟩ | hn
  · obtain ⟨u', hu, hrest⟩ := collapse_head_nonspace (by decide) heq
    refine Or.inl ⟨u', hu, ?_⟩
    rw [hrest] at hn
    exact nameTail_collapse hn
  · exact Or.inr (nameTail_collapse hn)

theorem titleWords_nonspace : ∀ t ∈ titleWords, ∀ x ∈ t, pySpace x = false := by
  decide

theorem titleInstr_collapse {u : List Char}
    (h : titleInstr (collapse u) = true) : titleInstr u = true := by
  rw [titleInstr_true_iff] at h ⊢
  obtain ⟨t, ht, hci, hia⟩ := h
  obtain ⟨h1, h2⟩ := ciStarts_collapse t u (titleWords_nonspace t ht) hci
  rw [h2] at hia
  exact ⟨t, ht, h1, instrAfterTitle_collapse hia⟩

theorem instrDashAt_cons_space {c : Char} (hc : pySpace c = true) (u : List Char) :
    instrDashAt (c :: u) = instrDashAt u := by
  simp only [instrDashAt, List.dropWhile_cons, hc, if_true]

theorem noMatch_collapse_instrDash (v : List Char) (h : NoMatchAt instrDashAt v) :
    NoMatchAt instrDashAt (collapse v) := by
  cases v with
  | nil => simpa [collapse] using h
  | cons c vs =>
    have htail : NoMatchAt instrDashAt vs := fun k => h (k + 1)
    by_cases hc : pySpace c = true
    · have hdvs : NoMatchAt instrDashAt (vs.dropWhile pySpace) := by
        obtain ⟨n, hn⟩ := dropWhile_as_drop vs
        rw [hn]
        exact noMatchAt_drop htail n
      have hrec := noMatch_collapse_instrDash (vs.dropWhile pySpace) hdvs
      rw [collapse_cons_space vs hc]
      intro k
      cases k with
      | zero =>
        rw [List.drop_zero, instrDashAt_cons_space (by decide)]
        simpa using hrec 0
      | succ k' =>
        rw [List.drop_succ_cons]
        exact hrec k'
    · have hc' : pySpace c = false := by simpa using hc
      rw [collapse_cons_nonspace hc']
      have hrec := noMatch_collapse_instrDash vs htail
      intro k
      cases k with
      | succ k' =>
        rw [List.drop_succ_cons]
        exact hrec k'
      | zero =>
        rw [List.drop_zero]
        cases hb : instrDashAt (c :: collapse vs) with
        | false => rfl
        | true =>
          exfalso
          rw [instrDashAt_true_iff] at hb
          obtain ⟨r, hdw, ht⟩ := hb
          rw [List.dropWhile_cons, if_neg (by simp [hc'])] at hdw
          injection hdw with hch hrw
          subst hch
          subst hrw
          rw [dropWhile_collapse] at ht
          have ht' := titleInstr_collapse ht
          have h0 := h 0
          rw [List.drop_zero] at h0
          have hcontra : instrDashAt ('-' :: vs) = true := by
            rw [instrDashAt_true_iff]
            refine ⟨vs, ?_, ht'⟩
            rw [List.dropWhile_cons, if_neg (by simp [hc'])]
          rw [h0] at hcontra
          exact Bool.false_ne_true hcontra
termination_by v.length
decreasing_by
  all_goals subst_vars
  · exact Nat.lt_succ_of_le ((List.dropWhile_sublist pySpace).length_le)
  · simp

theorem noMatch_collapse_instrSpace (v : List Char) (h : NoMatchAt instrSpaceAt v) :
    NoMatchAt instrSpaceAt (collapse v) := by
  cases v with
  | nil => simpa [collapse] using h
  | cons c vs =>
    have htail : NoMatchAt instrSpaceAt vs := fun k => h (k + 1)
    by_cases hc : pySpace c = true
    · have hdvs : NoMatchAt instrSpaceAt (vs.dropWhile pySpace) := by
        obtain ⟨n, hn⟩ := dropWhile_as_drop vs
        rw [hn]
        exact noMatchAt_drop htail n
      have hrec := noMatch_collapse_instrSpace (vs.dropWhile pySpace) hdvs
      rw [collapse_cons_space vs hc]
      intro k
      cases k with
      | succ k' =>
        rw [List.drop_succ_cons]
        exact hrec k'
      | zero =>
        rw [List.drop_zero]
        cases hb : instrSpaceAt (' ' :: collapse (vs.dropWhile pySpace)) with
        | false => rfl
        | true =>
          exfalso
          rw [instrSpaceAt_true_iff] at hb
          obtain ⟨c', rest', heq, -, ht⟩ := hb
          rw [List.dropWhile_cons, if_pos (by decide), collapse_dropWhile_self vs] at ht
          have ht' := titleInstr_collapse ht
          have h0 := h 0
          rw [List.drop_zero] at h0
          have hcontra : instrSpaceAt (c :: vs) = true := by
            rw [instrSpaceAt_true_iff]
            refine ⟨c, vs, rfl, hc, ?_⟩
            rw [List.dropWhile_cons, if_pos hc]
            exact ht'
          rw [h0] at hcontra
          exact Bool.false_ne_true hcontra
    · have hc' : pySpace c = false := by simpa using hc
      rw [collapse_cons_nonspace hc']
      have hrec := noMatch_collapse_instrSpace vs htail
      intro k
      cases k with
      | succ k' =>
        rw [List.drop_succ_cons]
        exact hrec k'
      | zero =>
        rw [List.drop_zero]
        cases hb : instrSpaceAt (c :: collapse vs) with
        | false => rfl
        | true =>
          exfalso
          rw [instrSpaceAt_true_iff] at hb
          obtain ⟨c', rest', heq, hsp, -⟩ := hb
          injection heq with h1 h2
          subst h1
          rw [hsp] at hc'
          simp at hc'
termination_by v.length
decreasing_by
  all_goals subst_vars
  · exact Nat.lt_succ_of_le ((List.dropWhile_sublist pySpace).length_le)
  · simp

theorem tidy_tail {c : Char} {w : List Char} (h : Tidy (c :: w)) : Tidy w := by
  cases w with
  | nil => trivial
  | cons d r => exact h.2.2

theorem tidy_collapse (v : List Char) : Tidy (collapse v) := by
  cases v with
  | nil => trivial
  | cons c vs =>
    by_cases hc : pySpace c = true
    · rw [collapse_cons_space vs hc]
      have hrec := tidy_collapse (vs.dropWhile pySpace)
      cases hX : collapse (vs.dropWhile pySpace) with
      | nil => exact fun _ => rfl
      | cons y t =>
        have hy : pySpace y = false := by
          have hself := collapse_dropWhile_self vs
          rw [hX] at hself
          exact dropWhile_head_false hself
        refine ⟨fun _ => rfl, ?_, ?_⟩
        · rintro ⟨-, hys⟩
          rw [hy] at hys
          exact Bool.false_ne_true hys
        · rw [← hX]
          exact hrec
    · have hc' : pySpace c = false := by simpa using hc
      rw [collapse_cons_nonspace hc']
      have hrec := tidy_collapse vs
      cases hY : collapse vs with
      | nil =>
        intro hcs
        rw [hcs] at hc'
        exact absurd hc' (by simp)
      | cons y t =>
        refine ⟨?_, ?_, ?_⟩
        · intro hcs
          rw [hcs] at hc'
          exact absurd hc' (by simp)
        · rintro ⟨hcs, -⟩
          rw [hcs] at hc'
          exact absurd hc' (by simp)
        · rw [← hY]
          exact hrec
termination_by v.length
decreasing_by
  all_goals subst_vars
  · exact Nat.lt_succ_of_le ((List.dropWhile_sublist pySpace).length_le)
  · simp

theorem tidy_take : ∀ (w : List Char), Tidy w → ∀ i, Tidy (w.take i) := by
  intro w
  induction w with
  | nil =>
    intro _ i
    simp only [List.take_nil]
    trivial
  | cons c w' ih =>
    intro h i
    cases i with
    | zero => trivial
    | succ i' =>
      rw [List.take_succ_cons]
      cases w' with
      | nil =>
        simp only [List.take_nil]
        exact h
      | cons d w'' =>
        obtain ⟨h1, h2, h3⟩ := h
        cases i' with
        | zero => exact h1
        | succ i'' =>
          rw [List.take_succ_cons]
          have ht := ih h3 (i'' + 1)
          rw [List.take_succ_cons] at ht
          exact ⟨h1, h2, ht⟩

theorem tidy_drop : ∀ (w : List Char), Tidy w → ∀ n, Tidy (w.drop n) := by
  intro w
  induction w with
  | nil =>
    intro _ n
    simp only [List.drop_nil]
    trivial
  | cons c w' ih =>
    intro h n
    cases n with
    | zero => exact h
    | succ n' =>
      rw [List.drop_succ_cons]
      exact ih (tidy_tail h) n'

theorem tidy_collapse_eq : ∀ (w : List Char), Tidy w → collapse w = w := by
  intro w
  induction w with
  | nil => intro _; rfl
  | cons c w' ih =>
    intro h
    cases w' with
    | nil =>
      by_cases hc : pySpace c = true
      · have : c = ' ' := h hc
        subst this
        rfl
      · rw [collapse, if_neg hc]
    | cons d w'' =>
      obtain ⟨h1, h2, h3⟩ := h
      have hcd : (pySpace c && pySpace d) = false := by
        cases hcs : pySpace c with
        | false => rfl
        | true =>
          cases hds : pySpace d with
          | false => simp
          | true => exact absurd ⟨hcs, hds⟩ h2
      rw [collapse, if_neg (by simp [hcd] : ¬(pySpace c && pySpace d) = true)]
      have htl : collapse (d :: w'') = d :: w'' := ih h3
      rw [htl]
      by_cases hc : pySpace c = true
      · rw [if_pos hc, h1 hc]
      · rw [if_neg hc]

theorem pyStrip_idem (cs : List Char) : pyStrip (pyStrip cs) = pyStrip cs := by
  have hps : pyStrip cs = ((cs.dropWhile pySpace).reverse.dropWhile pySpace).reverse :=
    rfl
  set w1 := cs.dropWhile pySpace with hw1
  set u := w1.reverse.dropWhile pySpace with hu
  have hpre : w1.reverse.takeWhile pySpace ++ u = w1.reverse :=
    List.takeWhile_append_dropWhile pySpace w1.reverse
  obtain ⟨P, hw⟩ : ∃ P, w1 = u.reverse ++ P := by
    refine ⟨(w1.reverse.takeWhile pySpace).reverse, ?_⟩
    have h := congrArg List.reverse hpre
    rw [List.reverse_append, List.reverse_reverse] at h
    exact h.symm
  rw [hps, pyStrip]
  have hA : u.reverse.dropWhile pySpace = u.reverse := by
    cases hur : u.reverse with
    | nil => rfl
    | cons y t =>
      have hyw : cs.dropWhile pySpace = y :: (t ++ P) := by
        rw [← hw1, hw, hur, List.cons_append]
      have hy : pySpace y = false := dropWhile_head_false hyw
      rw [List.dropWhile_cons, if_neg (by simp [hy])]
  rw [hA, List.reverse_reverse]
  have hB : u.dropWhile pySpace = u := by
    cases huc : u with
    | nil => rfl
    | cons y t =>
      have hy : pySpace y = false := dropWhile_head_false (hu.symm.trans huc)
      rw [List.dropWhile_cons, if_neg (by simp [hy])]
  rw [hB]

/-- C5 (amended): normalization is idempotent at every input whose normalized
output is left unchanged by the three end-anchored removal passes (trailing
dash-qualifier, trailing space-qualifier, trailing lone dash); the stripping,
instructor-removal and whitespace-collapsing passes never fire again on a
normalized output.  Unconditional idempotence fails: each call of the
qualifier and dash passes removes only one trailing occurrence, so a second
application of `normalize` can strip one more (e.g. `"a lab lab"`; see the
counterexample). -/
theorem C5_conditional_idempotent (x : Option String)
    (h3 : subToEnd qualDashAt (normalize_session_text x).data =
      (normalize_session_text x).data)
    (h4 : subToEnd qualSpaceAt (normalize_session_text x).data =
      (normalize_session_text x).data)
    (h5 : subToEnd dashEndAt (normalize_session_text x).data =
      (normalize_session_text x).data) :
    normalize_session_text (some (normalize_session_text x)) =
      normalize_session_text x := by
  cases x with
  | none => rfl
  | some s =>
    set t0 := pyStrip s.data with ht0
    set t1 := subToEnd instrDashAt t0 with ht1
    set t2 := subToEnd instrSpaceAt t1 with ht2
    set t3 := subToEnd qualDashAt t2 with ht3
    set t4 := subToEnd qualSpaceAt t3 with ht4
    set t5 := subToEnd dashEndAt t4 with ht5
    have hydata : (normalize_session_text (some s)).data = pyStrip (collapse t5) := rfl
    -- the instructor matchers never fire anywhere in the final output
    have nd1 : NoMatchAt instrDashAt t1 :=
      noMatchAt_subToEnd truncMono_instrDash rfl t0
    have ns2 : NoMatchAt instrSpaceAt t2 :=
      noMatchAt_subToEnd truncMono_instrSpace rfl t1
    have nd2 : NoMatchAt instrDashAt t2 := by
      obtain ⟨j, hj⟩ := subToEnd_eq_take instrSpaceAt t1
      rw [ht2, hj]
      exact noMatchAt_take truncMono_instrDash nd1 j
    have nd3 : NoMatchAt instrDashAt t3 := by
      obtain ⟨j, hj⟩ := subToEnd_eq_take qualDashAt t2
      rw [ht3, hj]
      exact noMatchAt_take truncMono_instrDash nd2 j
    have ns3 : NoMatchAt instrSpaceAt t3 := by
      obtain ⟨j, hj⟩ := subToEnd_eq_take qualDashAt t2
      rw [ht3, hj]
      exact noMatchAt_take truncMono_instrSpace ns2 j
    have nd4 : NoMatchAt instrDashAt t4 := by
      obtain ⟨j, hj⟩ := subToEnd_eq_take qualSpaceAt t3
      rw [ht4, hj]
      exact noMatchAt_take truncMono_instrDash nd3 j
    have ns4 : NoMatchAt instrSpaceAt t4 := by
      obtain ⟨j, hj⟩ := subToEnd_eq_take qualSpaceAt t3
      rw [ht4, hj]
      exact noMatchAt_take truncMono_instrSpace ns3 j
    have nd5 : NoMatchAt instrDashAt t5 := by
      obtain ⟨j, hj⟩ := subToEnd_eq_take dashEndAt t4
      rw [ht5, hj]
      exact noMatchAt_take truncMono_instrDash nd4 j
    have ns5 : NoMatchAt instrSpaceAt t5 := by
      obtain ⟨j, hj⟩ := subToEnd_eq_take dashEndAt t4
      rw [ht5, hj]
      exact noMatchAt_take truncMono_instrSpace ns4 j
    have ndy : NoMatchAt instrDashAt (normalize_session_text (some s)).data := by
      rw [hydata]
      exact noMatchAt_pyStrip truncMono_instrDash (noMatch_collapse_instrDash t5 nd5)
    have nsy : NoMatchAt instrSpaceAt (normalize_session_text (some s)).data := by
      rw [hydata]
      exact noMatchAt_pyStrip truncMono_instrSpace (noMatch_collapse_instrSpace t5 ns5)
    have hstrip : pyStrip (normalize_session_text (some s)).data =
        (normalize_session_text (some s)).data := by
      rw [hydata]
      exact pyStrip_idem (collapse t5)
    have htidy : Tidy (normalize_session_text (some s)).data := by
      rw [hydata]
      obtain ⟨n, i, hni⟩ := pyStrip_as_drop_take (collapse t5)
      rw [hni]
      exact tidy_take _ (tidy_drop _ (tidy_collapse t5) n) i
    have hcol : collapse (normalize_session_text (some s)).data =
        (normalize_session_text (some s)).data :=
      tidy_collapse_eq _ htidy
    have s1 : subToEnd instrDashAt (normalize_session_text (some s)).data =
        (normalize_session_text (some s)).data :=
      subToEnd_eq_self_of_noMatch ndy
    have s2 : subToEnd instrSpaceAt (normalize_session_text (some s)).data =
        (normalize_session_text (some s)).data :=
      subToEnd_eq_self_of_noMatch nsy
    show String.mk (pyStrip (collapse (subToEnd dashEndAt (subToEnd qualSpaceAt
      (subToEnd qualDashAt (subToEnd instrSpaceAt (subToEnd instrDashAt
        (pyStrip (normalize_session_text (some s)).data)))))))) =
      normalize_session_text (some s)
    rw [hstrip, s1, s2, h3, h4, h5, hcol, hstrip]

/-- C5 counterexample: the label `"a lab lab"` normalizes to `"a lab"` (the
end-anchored qualifier pattern removes only the last `" lab"`), and a second
normalization strips the remaining `" lab"`, yielding `"a"`. -/
theorem C5_counterexample :
    normalize_session_text (some "a lab lab") = "a lab" ∧
    normalize_session_text (some (normalize_session_text (some "a lab lab"))) = "a" ∧
    normalize_session_text (some (normalize_session_text (some "a lab lab"))) ≠
      normalize_session_text (some "a lab lab") := by
  refine ⟨by decide, by decide, by decide⟩

theorem C5_conditional_idempotent_witness :
    (subToEnd qualDashAt (normalize_session_text (some "Data Structures")).data =
        (normalize_session_text (some "Data Structures")).data ∧
      subToEnd qualSpaceAt (normalize_session_text (some "Data Structures")).data =
        (normalize_session_text (some "Data Structures")).data ∧
      subToEnd dashEndAt (normalize_session_text (some "Data Structures")).data =
        (normalize_session_text (some "Data Structures")).data) ∧
    normalize_session_text (some (normalize_session_text (some "Data Structures"))) =
      normalize_session_text (some "Data Structures") :=
  ⟨⟨by decide, by decide, by decide⟩,
    C5_conditional_idempotent (some "Data Structures")
      (by decide) (by decide) (by decide)⟩
